import Mathlib

/-!
Router and voice-activity detector of go-gst-speech-detection.

A shallow embedding of the callbacks of the program:

* `processoutput.needData`, the `NeedDataFunc` of the output `appsrc`
  (`internal/processoutput/output.go`), and `processoutput.int16ToBytes`, the
  sample serializer of the same file;
* `processinput.newSample`, the append-and-extract loop and the energy rule of
  the microphone `NewSampleFunc` (`internal/processinput/microphone.go`), and
  `processinput.createHammingWindow`.

Conventions.  An `int16` sample is an `Int` in `[-32768, 32767]` (`IsInt16`); a
byte is a `Nat` below `256`; a Go channel of blocks is the list of its pending
blocks, oldest first; the callbacks are modelled one call at a time, with the
shared state passed explicitly.  The `float64` arithmetic is abstracted by an
ordered field `F`: the definitions are polymorphic in `F` and run on `ℚ`, the
theorems hold in exact arithmetic, on `ℝ` where the cosine is needed.  Rounding
and the special values of `float64` are outside the model, so no theorem here
speaks about the bit-exact value of a stored `float64`.
-/

namespace constants

/-- The constant `FFTWindowSize = 2048`. -/
def FFTWindowSize : Nat := 2048

/-- The constant `SampleRate = 44100.0`. -/
def SampleRate {F : Type} [LinearOrderedField F] : F := 44100

/-- The constant `SpeechLowFreq = 250.0`. -/
def SpeechLowFreq {F : Type} [LinearOrderedField F] : F := 250

/-- The constant `SpeechHighFreq = 4000.0`. -/
def SpeechHighFreq {F : Type} [LinearOrderedField F] : F := 4000

end constants

namespace objects

/-- The range of a Go `int16`. -/
def IsInt16 (v : Int) : Prop := -32768 ≤ v ∧ v < 32768

instance (v : Int) : Decidable (IsInt16 v) := by
  unfold IsInt16; infer_instance

/-- One block of samples as it travels through a channel (`[]int16`). -/
abbrev SampleBlock := List Int

end objects

namespace processoutput

open objects

/-! ## The serializer -/

/-- The Go conversion `uint16(v)` of an `int16`: the 16-bit two's-complement pattern. -/
def toUint16 (v : Int) : Nat := (v % 65536).toNat

/-- The library routine `binary.LittleEndian.PutUint16`: `b[0] = byte(v)`,
`b[1] = byte(v >> 8)`. -/
def putUint16 (v : Nat) : List Nat := [v % 256, (v / 256) % 256]

/-- The call `binary.Write(buf, binary.LittleEndian, v)` for an `int16` value on a
`bytes.Buffer`: two bytes are appended; the write cannot fail. -/
def binaryWrite (buf : List Nat) (v : Int) : Except String (List Nat) :=
  .ok (buf ++ putUint16 (toUint16 v))

/-- The `for _, v := range int16Slice` loop of `int16ToBytes`, started with the
bytes written so far; a failed write returns `nil`. -/
def int16ToBytesLoop (buf : List Nat) : List Int → List Nat
  | [] => buf
  | v :: rest =>
    match binaryWrite buf v with
    | .error _ => []
    | .ok buf1 => int16ToBytesLoop buf1 rest

/-- The function `int16ToBytes`: a fresh buffer, the loop, `buf.Bytes()`. -/
def int16ToBytes (int16Slice : List Int) : List Nat :=
  int16ToBytesLoop [] int16Slice

/-- The reading side of the wire contract (`AsInt16LESlice` of the binding):
consecutive byte pairs `lo, hi` are read as the `int16` with pattern
`lo + 256 * hi`; a trailing odd byte is dropped. -/
def bytesToInt16 : List Nat → List Int
  | lo :: hi :: rest =>
    let u := lo + 256 * hi
    (if u < 32768 then (u : Int) else (u : Int) - 65536) :: bytesToInt16 rest
  | _ => []

/-- Little-endian serialization in the words of the specification: the samples
in order, each as the low then the high byte of its 16-bit pattern. -/
def serializeLE (s : List Int) : List Nat :=
  s.flatMap (fun v => [toUint16 v % 256, toUint16 v / 256])

/-- The 16-bit two's-complement value of an `int16`, in the words of the
specification: a negative sample is offset by `2^16`. -/
def twosComplement16 (v : Int) : Nat :=
  if v < 0 then (v + 65536).toNat else v.toNat

/-! ## Buffers of the media framework -/

/-- Modelled from the spec: `gst.NewBufferWithSize` belongs to the go-gst
binding, whose source is not part of the repository.  The specification
describes the filler block obtained from it as `size` zero-valued bytes. -/
def newBufferWithSize (size : Nat) : List Nat := List.replicate size 0

/-- The call `buffer.Map(gst.MapWrite).WriteData(data)`: the bytes of `data` are copied
over the beginning of the buffer memory. -/
def writeData (buffer data : List Nat) : List Nat :=
  data.take buffer.length ++ buffer.drop data.length

/-! ## The pull handler -/

/-- What the handler reads and writes: the atomic flag and the two channels. -/
structure RouterState where
  SpeakingFlag : Bool
  MicroPhoneChannel : List SampleBlock
  ToneChannel : List SampleBlock
deriving DecidableEq, Repr

/-- Lines 84-87: the dummy buffer of 64 bytes is pushed. -/
def pushDummy (s : RouterState) : RouterState × List (List Nat) :=
  let dummyBuffer := newBufferWithSize 64
  (s, [dummyBuffer])

/-- Lines 67-82: if the tone channel holds a block it is received and
serialized; it is pushed when the flag is clear, else control falls through
to the dummy buffer. -/
def toneStage (s : RouterState) : RouterState × List (List Nat) :=
  match s.ToneChannel with
  | toneData :: rest =>
    let s1 := { s with ToneChannel := rest }
    let toneDataBytes := int16ToBytes toneData
    let toneBuffer := writeData (newBufferWithSize toneDataBytes.length) toneDataBytes
    if !s1.SpeakingFlag then (s1, [toneBuffer]) else pushDummy s1
  | [] => pushDummy s

/-- The `NeedDataFunc` callback (lines 49-88): the final state and the buffers
handed to `PushBuffer`, in order.  If the microphone channel holds a block it
is received and serialized; it is pushed when the flag is set, else control
falls through to the tone channel. -/
def needData (s : RouterState) : RouterState × List (List Nat) :=
  match s.MicroPhoneChannel with
  | micData :: rest =>
    let s1 := { s with MicroPhoneChannel := rest }
    let micDataBytes := int16ToBytes micData
    let micBuffer := writeData (newBufferWithSize micDataBytes.length) micDataBytes
    if s1.SpeakingFlag then (s1, [micBuffer]) else toneStage s1
  | [] => toneStage s

/-- The frame property of the router as the specification words it, at one
state: at most one block leaves the two queues, the queue the flag does not
select is unchanged, and a filler leaves both queues unchanged. -/
def DequeuesSelectedOnly (s : RouterState) : Prop :=
  let r := needData s
  (s.MicroPhoneChannel.length + s.ToneChannel.length
      ≤ r.1.MicroPhoneChannel.length + r.1.ToneChannel.length + 1) ∧
  (s.SpeakingFlag = false → r.1.MicroPhoneChannel = s.MicroPhoneChannel) ∧
  (s.SpeakingFlag = true → r.1.ToneChannel = s.ToneChannel) ∧
  (r.2 = [newBufferWithSize 64] →
      r.1.MicroPhoneChannel = s.MicroPhoneChannel ∧ r.1.ToneChannel = s.ToneChannel)

end processoutput

namespace processinput

open constants

/-! ## Numerical routines taken from libraries -/

/-- The library routines the microphone callback calls, over the scalar type
`F` standing for `float64` and the type `C` standing for `complex128`:
`math.Cos`, `math.Pi`, `fft.Coefficients(nil, ·)` and `cmplx.Abs`. -/
structure Numerics (F C : Type) where
  cos : F → F
  pi : F
  coefficients : List F → List C
  cabs : C → F

/-- The Go idiom `w := make([]float64, n); for i := 0; i < n; i++ { w[i] = f(i) }`,
from loop counter `i` on. -/
def fillLoop {F : Type} (n : Nat) (f : Nat → F) (i : Nat) (w : List F) : List F :=
  if i < n then fillLoop n f (i + 1) (w.set i (f i)) else w
termination_by n - i

/-- The slice `make([]float64, n)` filled by the loop above. -/
def fillFloat64 {F : Type} [Zero F] (n : Nat) (f : Nat → F) : List F :=
  fillLoop n f 0 (List.replicate n 0)

/-- The function `createHammingWindow(size)`:
`window[i] = 0.54 - 0.46*math.Cos(2*math.Pi*float64(i)/float64(size-1))`,
with the arithmetic carried out exactly in `F`.  The rounding of the `float64`
operations and of `math.Cos` is not represented, so nothing about the bits of
the stored values follows from this definition; and for `size = 1` the source
divides `0` by `0` and stores `NaN`, a value `F` does not have.  The program
calls the function once, with `size = FFTWindowSize = 2048`. -/
def createHammingWindow {F : Type} [LinearOrderedField F] (cos : F → F) (pi : F)
    (size : Nat) : List F :=
  fillFloat64 size fun i => 0.54 - 0.46 * cos (2 * pi * (i : F) / ((size - 1 : Nat) : F))

/-- The package variable `hammingWindow = createHammingWindow(constants.FFTWindowSize)`,
computed once and only read afterwards. -/
def hammingWindow {F C : Type} [LinearOrderedField F] (nm : Numerics F C) : List F :=
  createHammingWindow nm.cos nm.pi FFTWindowSize

/-! ## The microphone callback -/

/-- Lines 106-109: `window[i] = float64(sampleBuffer[i]) * hammingWindow[i]`
for `i < FFTWindowSize`. -/
def extractWindow {F : Type} [LinearOrderedField F] (hamming : List F)
    (sampleBuffer : List Int) : List F :=
  fillFloat64 FFTWindowSize fun i => ((sampleBuffer.getD i 0 : Int) : F) * hamming.getD i 0

/-- Line 118: `binWidth := constants.SampleRate / float64(constants.FFTWindowSize)`. -/
def binWidth {F : Type} [LinearOrderedField F] : F :=
  SampleRate / (FFTWindowSize : F)

/-- Line 119: `startBin := int(math.Floor(constants.SpeechLowFreq / binWidth))`;
the quotient is positive, so the result is a natural number. -/
def startBin (F : Type) [LinearOrderedField F] [FloorSemiring F] : Nat :=
  ⌊(SpeechLowFreq / binWidth : F)⌋₊

/-- Line 120: `endBin := int(math.Ceil(constants.SpeechHighFreq / binWidth))`;
the quotient is positive, so the result is a natural number. -/
def endBin (F : Type) [LinearOrderedField F] [FloorSemiring F] : Nat :=
  ⌈(SpeechHighFreq / binWidth : F)⌉₊

/-- The loop header of line 124,
`for i := ...; i <= endBin && i < len(fftCoefs); i++ { acc = body(acc, i) }`,
from loop counter `i` on, with the loop body as a parameter. -/
def speechBandLoop {α : Type} (last len : Nat) (body : α → Nat → α) (i : Nat) (acc : α) : α :=
  if i ≤ last ∧ i < len then speechBandLoop last len body (i + 1) (body acc i) else acc
termination_by last + 1 - i

/-- Lines 123-126: `speechEnergy += cmplx.Abs(fftCoefs[i])` over the loop of line 124. -/
def speechEnergy {F C : Type} [LinearOrderedField F] [FloorSemiring F] (nm : Numerics F C)
    (fftCoefs : List C) : F :=
  speechBandLoop (endBin F) fftCoefs.length
    (fun acc i => acc + ((fftCoefs.get? i).map nm.cabs).getD 0) (startBin F) 0

/-- The indices at which the loop of line 124 runs its body, in order. -/
def speechBandIndices (F : Type) [LinearOrderedField F] [FloorSemiring F] (len : Nat) :
    List Nat :=
  speechBandLoop (endBin F) len (fun acc i => acc ++ [i]) (startBin F) []

/-- Lines 129-132: `for _, c := range fftCoefs { totalEnergy += cmplx.Abs(c) }`. -/
def totalEnergy {F C : Type} [LinearOrderedField F] (nm : Numerics F C)
    (fftCoefs : List C) : F :=
  fftCoefs.foldl (fun acc c => acc + nm.cabs c) 0

/-- Lines 115-144 for one window: the transform, the two energies, the
threshold `totalEnergy * 0.3`, and the value handed to `SpeakingFlag.Store`. -/
def classifyWindow {F C : Type} [LinearOrderedField F] [FloorSemiring F] (nm : Numerics F C)
    (window : List F) : Bool :=
  let fftCoefs := nm.coefficients window
  let speech := speechEnergy nm fftCoefs
  let total := totalEnergy nm fftCoefs
  let threshold := total * 0.3
  if speech > threshold ∧ speech > 4000 then true else false

/-- The speech-band energy in the words of the specification: the sum of
`|coef[i]|` over the bins `startBin ≤ i ≤ endBin` that index a coefficient. -/
def speechBandSum {F C : Type} [LinearOrderedField F] [FloorSemiring F] (nm : Numerics F C)
    (fftCoefs : List C) : F :=
  ∑ i in (Finset.Icc (startBin F) (endBin F)).filter (fun i => i < fftCoefs.length),
    ((fftCoefs.get? i).map nm.cabs).getD 0

/-- The total energy in the words of the specification: the sum of `|coef[i]|`
over all coefficients returned by the transform. -/
def totalSum {F C : Type} [LinearOrderedField F] (nm : Numerics F C) (fftCoefs : List C) : F :=
  (fftCoefs.map nm.cabs).sum

/-- Modelled from the spec: the real-input discrete Fourier transform behind
`fft.Coefficients` (the gonum library, not part of the repository).  For a
sequence of length `n` it yields the `n / 2 + 1` coefficients
`c[k] = Σ_j seq[j] * e^(-2πi * j * k / n)`; `ofReal` embeds a scalar into the
coefficient type and `cis θ` stands for `e^(iθ)`. -/
def dftCoefficients {F C : Type} [Field F] [Semiring C] (ofReal : F → C) (cis : F → C) (pi : F)
    (seq : List F) : List C :=
  (List.range (seq.length / 2 + 1)).map fun (k : Nat) =>
    ((List.range seq.length).map fun (j : Nat) =>
      ofReal (seq.getD j 0) * cis (-(2 * pi * (j : F) * (k : F) / (seq.length : F)))).sum

/-- Exact real arithmetic: the library routines are the real cosine, the real
number `π`, the discrete Fourier transform over `ℂ` and the complex modulus. -/
def ExactReal (nm : Numerics ℝ ℂ) : Prop :=
  nm.cos = Real.cos ∧ nm.pi = Real.pi ∧
  nm.coefficients
    = dftCoefficients (fun x : ℝ => (x : ℂ)) (fun θ : ℝ => Complex.exp (θ * Complex.I))
        Real.pi ∧
  nm.cabs = fun z => Complex.abs z

/-- The state the microphone callback keeps between calls: the package
variable `sampleBuffer` and the shared `SpeakingFlag`. -/
structure MicState where
  sampleBuffer : List Int
  SpeakingFlag : Bool
deriving DecidableEq, Repr

/-- The loop `for len(sampleBuffer) >= constants.FFTWindowSize` (lines 104-145):
a window is built from the first `FFTWindowSize` samples, these are cut off the
buffer, the window is classified and the decision stored.  Next to the state
the function returns the log of the windows classified with the value stored
for each, oldest first. -/
def processWindows {F C : Type} [LinearOrderedField F] [FloorSemiring F] (nm : Numerics F C)
    (st : MicState) (log : List (List F × Bool)) : MicState × List (List F × Bool) :=
  if FFTWindowSize ≤ st.sampleBuffer.length then
    let window := extractWindow (hammingWindow nm) st.sampleBuffer
    let sampleBuffer1 := st.sampleBuffer.drop FFTWindowSize
    let decision := classifyWindow nm window
    processWindows nm ⟨sampleBuffer1, decision⟩ (log ++ [(window, decision)])
  else (st, log)
termination_by st.sampleBuffer.length
decreasing_by
  simp only [List.length_drop]
  have : 0 < FFTWindowSize := by decide
  omega

/-- The append-and-extract part of `NewSampleFunc` (lines 97-147): the new
samples are appended to `sampleBuffer`, then every complete window is
processed.  The send of the block on `MicroPhoneChannel` (line 101) touches
neither `sampleBuffer` nor the flag and is left to the router model. -/
def newSample {F C : Type} [LinearOrderedField F] [FloorSemiring F] (nm : Numerics F C)
    (st : MicState) (newSamples : List Int) : MicState × List (List F × Bool) :=
  processWindows nm { st with sampleBuffer := st.sampleBuffer ++ newSamples } []

/-- The `j`-th analysis window of an input stream in the words of the
specification: samples `j * FFTWindowSize .. (j + 1) * FFTWindowSize - 1`, in
order, each multiplied by the window coefficient at the same index. -/
def windowOfInput {F : Type} [LinearOrderedField F] (hamming : List F) (input : List Int)
    (j : Nat) : List F :=
  (List.range FFTWindowSize).map fun i =>
    ((input.getD (j * FFTWindowSize + i) 0 : Int) : F) * hamming.getD i 0

/-- One callback per block, in order; the logs of the callbacks are concatenated. -/
def runCallbacks {F C : Type} [LinearOrderedField F] [FloorSemiring F] (nm : Numerics F C) :
    MicState → List (List Int) → MicState × List (List F × Bool)
  | st, [] => (st, [])
  | st, block :: rest =>
    let r := newSample nm st block
    let r1 := runCallbacks nm r.1 rest
    (r1.1, r.2 ++ r1.2)

end processinput

namespace processinput

open constants

/-! ## Facts about the loops -/

theorem fillLoop_length {F : Type} (n : Nat) (f : Nat → F) (i : Nat) (w : List F) :
    (fillLoop n f i w).length = w.length := by
  generalize h : n - i = d
  induction d generalizing i w with
  | zero =>
    rw [fillLoop, if_neg (by omega)]
  | succ d ih =>
    rw [fillLoop, if_pos (by omega), ih (i + 1) _ (by omega), List.length_set]

theorem fillLoop_getElem? {F : Type} (n : Nat) (f : Nat → F) (i : Nat) (w : List F) (j : Nat) :
    (fillLoop n f i w)[j]? = if i ≤ j ∧ j < n ∧ j < w.length then some (f j) else w[j]? := by
  generalize h : n - i = d
  induction d generalizing i w with
  | zero =>
    rw [fillLoop, if_neg (by omega), if_neg (by omega)]
  | succ d ih =>
    rw [fillLoop, if_pos (by omega), ih (i + 1) _ (by omega), List.length_set]
    by_cases hj : i + 1 ≤ j ∧ j < n ∧ j < w.length
    · rw [if_pos hj, if_pos ⟨by omega, hj.2⟩]
    · rw [if_neg hj]
      by_cases hij : i = j
      · subst hij
        by_cases hl : i < w.length
        · rw [if_pos ⟨le_refl _, by omega, hl⟩]
          simp [List.getElem?_set, hl]
        · rw [if_neg (by omega)]
          have hl1 : w.length ≤ i := by omega
          simp [List.getElem?_set, hl, List.getElem?_eq_none hl1]
      · rw [if_neg (by omega), List.getElem?_set_ne hij]

theorem fillFloat64_eq {F : Type} [Zero F] (n : Nat) (f : Nat → F) :
    fillFloat64 n f = (List.range n).map f := by
  apply List.ext_getElem?
  intro j
  rw [fillFloat64, fillLoop_getElem?]
  by_cases hj : j < n
  · simp [hj]
  · have hj1 : n ≤ j := by omega
    simp [hj, List.getElem?_eq_none, hj1]


theorem fillFloat64_length {F : Type} [Zero F] (n : Nat) (f : Nat → F) :
    (fillFloat64 n f).length = n := by
  simp [fillFloat64_eq]

theorem speechBandLoop_eq {α : Type} (last len : Nat) (body : α → Nat → α) (i : Nat) (acc : α) :
    speechBandLoop last len body i acc
      = (List.range' i (min (last + 1) len - i)).foldl body acc := by
  generalize h : last + 1 - i = d
  induction d generalizing i acc with
  | zero =>
    rw [speechBandLoop, if_neg (by omega)]
    have : min (last + 1) len - i = 0 := by omega
    simp [this]
  | succ d ih =>
    rw [speechBandLoop]
    by_cases hc : i ≤ last ∧ i < len
    · rw [if_pos hc, ih (i + 1) _ (by omega)]
      have : min (last + 1) len - i = (min (last + 1) len - (i + 1)) + 1 := by omega
      rw [this, List.range'_succ, List.foldl_cons]
    · rw [if_neg hc]
      have : min (last + 1) len - i = 0 := by omega
      simp [this]

theorem foldl_add_eq_sum {F β : Type} [AddCommMonoid F] (g : β → F) (l : List β) (a : F) :
    l.foldl (fun acc x => acc + g x) a = a + (l.map g).sum := by
  induction l generalizing a with
  | nil => simp
  | cons x rest ih => simp [ih, add_assoc]

theorem extractWindow_eq {F : Type} [LinearOrderedField F] (hamming : List F)
    (buf : List Int) :
    extractWindow hamming buf
      = (List.range FFTWindowSize).map
          fun i => ((buf.getD i 0 : Int) : F) * hamming.getD i 0 := by
  rw [extractWindow, fillFloat64_eq]

theorem extractWindow_drop {F : Type} [LinearOrderedField F] (hamming : List F)
    (input : List Int) (m : Nat) :
    extractWindow hamming (input.drop m)
      = (List.range FFTWindowSize).map
          fun i => ((input.getD (m + i) 0 : Int) : F) * hamming.getD i 0 := by
  rw [extractWindow_eq]
  apply List.map_congr_left
  intro i _
  simp [List.getD_eq_getElem?_getD, List.getElem?_drop]

theorem extractWindow_append {F : Type} [LinearOrderedField F] (hamming : List F)
    (a b : List Int) (m : Nat) (h : m + FFTWindowSize ≤ a.length) :
    extractWindow hamming ((a ++ b).drop m) = extractWindow hamming (a.drop m) := by
  rw [extractWindow_drop, extractWindow_drop]
  apply List.map_congr_left
  intro i hi
  have hi1 : i < FFTWindowSize := List.mem_range.mp hi
  have : m + i < a.length := by omega
  simp [List.getD_eq_getElem?_getD, List.getElem?_append_left this]


theorem FFTWindowSize_pos : 0 < FFTWindowSize := by decide

theorem drop_drop_window (buf : List Int) (j : Nat) :
    (buf.drop FFTWindowSize).drop (j * FFTWindowSize) = buf.drop ((j + 1) * FFTWindowSize) := by
  rw [List.drop_drop]
  congr 1
  ring

theorem processWindows_eq {F C : Type} [LinearOrderedField F] [FloorSemiring F]
    (nm : Numerics F C) (k : Nat) (buf : List Int) (flag : Bool) (log : List (List F × Bool))
    (hk : buf.length / FFTWindowSize = k) :
    processWindows nm ⟨buf, flag⟩ log =
      (⟨buf.drop (k * FFTWindowSize),
        if k = 0 then flag
        else classifyWindow nm
          (extractWindow (hammingWindow nm) (buf.drop ((k - 1) * FFTWindowSize)))⟩,
       log ++ (List.range k).map fun j =>
        (extractWindow (hammingWindow nm) (buf.drop (j * FFTWindowSize)),
         classifyWindow nm (extractWindow (hammingWindow nm) (buf.drop (j * FFTWindowSize))))) := by
  induction k generalizing buf flag log with
  | zero =>
    have hlt : buf.length < FFTWindowSize := (Nat.div_eq_zero_iff FFTWindowSize_pos).mp hk
    rw [processWindows, if_neg (by simpa using hlt)]
    simp
  | succ k ih =>
    have hle : FFTWindowSize ≤ buf.length := by
      by_contra hlt
      rw [Nat.div_eq_of_lt (by omega)] at hk
      omega
    have hk1 : (buf.drop FFTWindowSize).length / FFTWindowSize = k := by
      rw [List.length_drop]
      have := Nat.div_eq_sub_div FFTWindowSize_pos hle
      omega
    rw [processWindows, if_pos (by simpa using hle)]
    simp only []
    rw [ih (buf.drop FFTWindowSize) _ _ hk1]
    have hflag : (if k = 0 then classifyWindow nm (extractWindow (hammingWindow nm) buf)
          else classifyWindow nm (extractWindow (hammingWindow nm)
            ((buf.drop FFTWindowSize).drop ((k - 1) * FFTWindowSize))))
        = classifyWindow nm (extractWindow (hammingWindow nm) (buf.drop (k * FFTWindowSize))) := by
      cases k with
      | zero => simp
      | succ m =>
        rw [if_neg (by omega), drop_drop_window]
        simp
    simp only [hflag]
    simp only [drop_drop_window, if_neg (Nat.succ_ne_zero k), Nat.add_sub_cancel]
    rw [List.range_succ_eq_map, List.map_cons, List.map_map]
    simp [Function.comp_def]


theorem extractWindow_drop_mul {F : Type} [LinearOrderedField F] (hamming : List F)
    (input : List Int) (j : Nat) :
    extractWindow hamming (input.drop (j * FFTWindowSize)) = windowOfInput hamming input j := by
  rw [extractWindow_drop, windowOfInput]

theorem windowOfInput_append {F : Type} [LinearOrderedField F] (hamming : List F)
    (a b : List Int) (j : Nat) (h : (j + 1) * FFTWindowSize ≤ a.length) :
    windowOfInput hamming (a ++ b) j = windowOfInput hamming a j := by
  rw [← extractWindow_drop_mul, ← extractWindow_drop_mul]
  apply extractWindow_append
  have : (j + 1) * FFTWindowSize = j * FFTWindowSize + FFTWindowSize := by ring
  omega

theorem newSample_eq {F C : Type} [LinearOrderedField F] [FloorSemiring F]
    (nm : Numerics F C) (st : MicState) (input b : List Int) (k K : Nat)
    (hk : input.length / FFTWindowSize = k) (hK : (input ++ b).length / FFTWindowSize = K)
    (hst : st.sampleBuffer = input.drop (k * FFTWindowSize)) :
    (newSample nm st b).1.sampleBuffer = (input ++ b).drop (K * FFTWindowSize) ∧
    (newSample nm st b).2
        = (List.range' k (K - k)).map
          (fun j => (windowOfInput (hammingWindow nm) (input ++ b) j,
            classifyWindow nm (windowOfInput (hammingWindow nm) (input ++ b) j))) ∧
    (newSample nm st b).1.SpeakingFlag
        = if K = k then st.SpeakingFlag
          else classifyWindow nm (windowOfInput (hammingWindow nm) (input ++ b) (K - 1)) := by
  have hN := FFTWindowSize_pos
  have hkle : k * FFTWindowSize ≤ input.length := by
    rw [← hk]; exact Nat.div_mul_le_self _ _
  have hbuf : st.sampleBuffer ++ b = (input ++ b).drop (k * FFTWindowSize) := by
    rw [hst, List.drop_append_of_le_length hkle]
  have hkK : k ≤ K := by
    rw [← hk, ← hK]; exact Nat.div_le_div_right (by simp)
  have hq : (st.sampleBuffer ++ b).length / FFTWindowSize = K - k := by
    rw [hbuf, List.length_drop, Nat.mul_comm k, Nat.sub_mul_div, hK]
    rw [Nat.mul_comm]
    exact le_trans hkle (by simp)
  have hdd : ∀ j, ((input ++ b).drop (k * FFTWindowSize)).drop (j * FFTWindowSize)
      = (input ++ b).drop ((k + j) * FFTWindowSize) := by
    intro j
    rw [List.drop_drop, Nat.add_mul]
  have hkKk : k + (K - k) = K := by omega
  unfold newSample
  rw [processWindows_eq nm (K - k) _ _ _ hq]
  simp only [hbuf, hdd, extractWindow_drop_mul, List.nil_append, hkKk]
  refine ⟨trivial, ?_, ?_⟩
  · rw [List.range'_eq_map_range, List.map_map]
    rfl
  · by_cases hKk : K = k
    · simp [hKk]
    · have h1 : K - k ≠ 0 := by omega
      have h2 : k + (K - k - 1) = K - 1 := by omega
      simp [h1, hKk, h2]


theorem runCallbacks_eq {F C : Type} [LinearOrderedField F] [FloorSemiring F]
    (nm : Numerics F C) (blocks : List (List Int)) :
    ∀ (st : MicState) (input : List Int) (k K : Nat),
      input.length / FFTWindowSize = k →
      (input ++ blocks.flatten).length / FFTWindowSize = K →
      st.sampleBuffer = input.drop (k * FFTWindowSize) →
      (runCallbacks nm st blocks).1.sampleBuffer
          = (input ++ blocks.flatten).drop (K * FFTWindowSize) ∧
      (runCallbacks nm st blocks).2
          = (List.range' k (K - k)).map
            (fun j => (windowOfInput (hammingWindow nm) (input ++ blocks.flatten) j,
              classifyWindow nm (windowOfInput (hammingWindow nm) (input ++ blocks.flatten) j))) := by
  induction blocks with
  | nil =>
    intro st input k K hk hK hst
    simp only [List.flatten_nil, List.append_nil] at hK ⊢
    have hKk : K = k := by rw [← hK, hk]
    subst hKk
    simp [runCallbacks, hst]
  | cons b rest ih =>
    intro st input k K hk hK hst
    have hassoc : input ++ (b :: rest).flatten = (input ++ b) ++ rest.flatten := by
      simp
    rw [hassoc] at hK ⊢
    obtain ⟨K1, hK1⟩ : ∃ K1, (input ++ b).length / FFTWindowSize = K1 := ⟨_, rfl⟩
    obtain ⟨hs1, hl1, -⟩ := newSample_eq nm st input b k K1 hk hK1 hst
    obtain ⟨hs2, hl2⟩ := ih (newSample nm st b).1 (input ++ b) K1 K hK1 hK hs1
    have hkK1 : k ≤ K1 := by
      rw [← hk, ← hK1]; exact Nat.div_le_div_right (by simp)
    have hK1K : K1 ≤ K := by
      rw [← hK1, ← hK]; exact Nat.div_le_div_right (by simp)
    have hK1le : K1 * FFTWindowSize ≤ (input ++ b).length := by
      rw [← hK1]; exact Nat.div_mul_le_self _ _
    refine ⟨by simpa [runCallbacks] using hs2, ?_⟩
    have hsplit : List.range' k (K - k) = List.range' k (K1 - k) ++ List.range' K1 (K - K1) := by
      have h1 : k + (K1 - k) = K1 := by omega
      have h2 : (K - K1) + (K1 - k) = K - k := by omega
      have h3 := List.range'_append_1 k (K1 - k) (K - K1)
      rw [h1, h2] at h3
      exact h3.symm
    have hfirst : (List.range' k (K1 - k)).map
          (fun j => (windowOfInput (hammingWindow nm) (input ++ b) j,
            classifyWindow nm (windowOfInput (hammingWindow nm) (input ++ b) j)))
        = (List.range' k (K1 - k)).map
          (fun j => (windowOfInput (hammingWindow nm) (input ++ b ++ rest.flatten) j,
            classifyWindow nm (windowOfInput (hammingWindow nm) (input ++ b ++ rest.flatten) j))) := by
      apply List.map_congr_left
      intro j hj
      have hj1 : j < K1 := by
        have := (List.mem_range'_1.mp hj).2
        omega
      have hle : (j + 1) * FFTWindowSize ≤ (input ++ b).length :=
        le_trans (Nat.mul_le_mul_right _ hj1) hK1le
      rw [windowOfInput_append _ _ _ _ hle]
    simp only [runCallbacks]
    rw [hl1, hl2, hsplit, List.map_append, hfirst]


theorem length_drop_window (l : List Int) :
    (l.drop (l.length / FFTWindowSize * FFTWindowSize)).length = l.length % FFTWindowSize := by
  rw [List.length_drop, Nat.mod_def, Nat.mul_comm]

theorem runCallbacks_from_empty {F C : Type} [LinearOrderedField F] [FloorSemiring F]
    (nm : Numerics F C) (flag0 : Bool) (blocks : List (List Int)) :
    (runCallbacks nm ⟨[], flag0⟩ blocks).1.sampleBuffer
        = blocks.flatten.drop (blocks.flatten.length / FFTWindowSize * FFTWindowSize) ∧
    (runCallbacks nm ⟨[], flag0⟩ blocks).2
        = (List.range (blocks.flatten.length / FFTWindowSize)).map
          (fun j => (windowOfInput (hammingWindow nm) blocks.flatten j,
            classifyWindow nm (windowOfInput (hammingWindow nm) blocks.flatten j))) := by
  have h := runCallbacks_eq nm blocks ⟨[], flag0⟩ [] 0 (blocks.flatten.length / FFTWindowSize)
    (by simp) (by simp) (by simp)
  simpa [List.range_eq_range'] using h

/-- C6: starting from an empty sample buffer, for every sequence of blocks, the
callbacks classify exactly `total / 2048` windows; window `j` consists of the
samples `j * 2048 .. (j + 1) * 2048 - 1` of the concatenated input, in order,
each multiplied by the Hamming coefficient of the same index; afterwards the
buffer holds exactly the last `total % 2048` samples, and after every callback
the buffer is shorter than 2048.  The loop is a total function, so every
callback terminates. -/
theorem windowing_exact {F C : Type} [LinearOrderedField F] [FloorSemiring F]
    (nm : Numerics F C) (flag0 : Bool) (blocks : List (List Int)) :
    (runCallbacks nm ⟨[], flag0⟩ blocks).2.length = blocks.flatten.length / 2048 ∧
    (runCallbacks nm ⟨[], flag0⟩ blocks).2.map Prod.fst
        = (List.range (blocks.flatten.length / 2048)).map (fun j =>
            (List.range 2048).map fun i =>
              ((blocks.flatten.getD (j * 2048 + i) 0 : Int) : F) * (hammingWindow nm).getD i 0) ∧
    (runCallbacks nm ⟨[], flag0⟩ blocks).1.sampleBuffer
        = blocks.flatten.drop (blocks.flatten.length / 2048 * 2048) ∧
    (runCallbacks nm ⟨[], flag0⟩ blocks).1.sampleBuffer.length = blocks.flatten.length % 2048 ∧
    (∀ n : Nat,
      (runCallbacks nm ⟨[], flag0⟩ (blocks.take n)).1.sampleBuffer.length < 2048) ∧
    (hammingWindow nm).length = 2048 := by
  obtain ⟨hbuf, hlog⟩ := runCallbacks_from_empty nm flag0 blocks
  have hN : FFTWindowSize = 2048 := rfl
  rw [hN] at hbuf hlog
  refine ⟨?_, ?_, hbuf, ?_, ?_, ?_⟩
  · rw [hlog]; simp
  · rw [hlog, List.map_map]
    apply List.map_congr_left
    intro j _
    simp only [Function.comp_apply, windowOfInput, hN]
  · rw [hbuf]
    exact length_drop_window _
  · intro n
    rw [(runCallbacks_from_empty nm flag0 (blocks.take n)).1, length_drop_window]
    exact Nat.mod_lt _ FFTWindowSize_pos
  · rw [hammingWindow, createHammingWindow, fillFloat64_length, hN]


theorem binWidth_eq {F : Type} [LinearOrderedField F] : (binWidth : F) = 44100 / 2048 := by
  simp [binWidth, SampleRate, FFTWindowSize]

theorem startBin_eq (F : Type) [LinearOrderedField F] [FloorSemiring F] : startBin F = 11 := by
  rw [startBin, binWidth_eq, SpeechLowFreq, Nat.floor_eq_iff (by positivity)]
  constructor <;> norm_num

theorem endBin_eq (F : Type) [LinearOrderedField F] [FloorSemiring F] : endBin F = 186 := by
  rw [endBin, binWidth_eq, SpeechHighFreq, Nat.ceil_eq_iff (by norm_num)]
  constructor <;> norm_num

theorem foldl_concat_eq {β : Type} (l : List β) (acc : List β) :
    l.foldl (fun acc i => acc ++ [i]) acc = acc ++ l := by
  induction l generalizing acc with
  | nil => simp
  | cons x rest ih => simp [ih]

theorem speechBandIndices_eq (F : Type) [LinearOrderedField F] [FloorSemiring F] (len : Nat) :
    speechBandIndices F len = List.range' 11 (min 187 len - 11) := by
  rw [speechBandIndices, speechBandLoop_eq, foldl_concat_eq, startBin_eq, endBin_eq]
  simp

theorem speechEnergy_eq {F C : Type} [LinearOrderedField F] [FloorSemiring F]
    (nm : Numerics F C) (fftCoefs : List C) :
    speechEnergy nm fftCoefs
      = ((speechBandIndices F fftCoefs.length).map
          fun i => ((fftCoefs.get? i).map nm.cabs).getD 0).sum := by
  rw [speechEnergy, speechBandLoop_eq, foldl_add_eq_sum, zero_add, speechBandIndices,
    speechBandLoop_eq, foldl_concat_eq, List.nil_append]

theorem totalEnergy_eq {F C : Type} [LinearOrderedField F] (nm : Numerics F C)
    (fftCoefs : List C) : totalEnergy nm fftCoefs = (fftCoefs.map nm.cabs).sum := by
  rw [totalEnergy, foldl_add_eq_sum, zero_add]

theorem mem_speechBandIndices (F : Type) [LinearOrderedField F] [FloorSemiring F]
    (len i : Nat) :
    i ∈ speechBandIndices F len ↔ startBin F ≤ i ∧ i ≤ endBin F ∧ i < len := by
  rw [speechBandIndices_eq, startBin_eq, endBin_eq, List.mem_range'_1]
  omega

/-- C9: with the constants of the program the bin width is `44100 / 2048`, the
speech band starts at bin `floor(250 / binWidth) = 11` and ends at bin
`ceil(4000 / binWidth) = 186`; the loop sums exactly the indices `i` with
`startBin ≤ i ≤ endBin` and `i < len(fftCoefs)`, each once and in increasing
order; for the `2048 / 2 + 1 = 1025` coefficients of a real-input transform
both bins are valid indices, the bound on `len` removes nothing and exactly
176 coefficients are summed. -/
theorem speech_band_bins (F C : Type) [LinearOrderedField F] [FloorSemiring F]
    (nm : Numerics F C) (fftCoefs : List C) :
    (binWidth : F) = 44100 / 2048 ∧
    startBin F = 11 ∧ endBin F = 186 ∧
    (∀ len i : Nat, i ∈ speechBandIndices F len ↔ startBin F ≤ i ∧ i ≤ endBin F ∧ i < len) ∧
    (∀ len : Nat, (speechBandIndices F len).Nodup ∧ (speechBandIndices F len).Pairwise (· < ·)) ∧
    speechEnergy nm fftCoefs
      = ((speechBandIndices F fftCoefs.length).map
          fun i => ((fftCoefs.get? i).map nm.cabs).getD 0).sum ∧
    FFTWindowSize / 2 + 1 = 1025 ∧
    startBin F < 1025 ∧ endBin F < 1025 ∧
    speechBandIndices F 1025 = List.range' (startBin F) (endBin F + 1 - startBin F) ∧
    speechBandIndices F 1025 = List.range' 11 176 ∧
    (speechBandIndices F 1025).length = 176 := by
  refine ⟨binWidth_eq, startBin_eq F, endBin_eq F, mem_speechBandIndices F, ?_,
    speechEnergy_eq nm fftCoefs, by decide, ?_, ?_, ?_, ?_, ?_⟩
  · intro len
    rw [speechBandIndices_eq]
    exact ⟨List.nodup_range' _ _, List.pairwise_lt_range' _ _⟩
  · rw [startBin_eq]; norm_num
  · rw [endBin_eq]; norm_num
  · rw [speechBandIndices_eq, startBin_eq, endBin_eq]; rfl
  · rw [speechBandIndices_eq]; rfl
  · rw [speechBandIndices_eq]; simp


theorem speechEnergy_eq_speechBandSum {F C : Type} [LinearOrderedField F] [FloorSemiring F]
    (nm : Numerics F C) (fftCoefs : List C) :
    speechEnergy nm fftCoefs = speechBandSum nm fftCoefs := by
  rw [speechEnergy_eq, speechBandSum]
  have hnd : (speechBandIndices F fftCoefs.length).Nodup := by
    rw [speechBandIndices_eq]; exact List.nodup_range' _ _
  rw [← List.sum_toFinset _ hnd]
  apply Finset.sum_congr _ (fun _ _ => rfl)
  ext i
  simp only [List.mem_toFinset, mem_speechBandIndices, Finset.mem_filter, Finset.mem_Icc]
  tauto

theorem classifyWindow_iff {F C : Type} [LinearOrderedField F] [FloorSemiring F]
    (nm : Numerics F C) (window : List F) :
    classifyWindow nm window = true ↔
      speechBandSum nm (nm.coefficients window) > 0.30 * totalSum nm (nm.coefficients window) ∧
      speechBandSum nm (nm.coefficients window) > 4000 := by
  unfold classifyWindow
  simp only [speechEnergy_eq_speechBandSum, totalEnergy_eq, totalSum]
  have h03 : ((nm.coefficients window).map nm.cabs).sum * (0.3 : F)
      = 0.30 * ((nm.coefficients window).map nm.cabs).sum := by
    norm_num [mul_comm]
  rw [h03]
  split_ifs with h
  · simpa using h
  · simpa using h

theorem getLast?_map_range {β : Type} (f : Nat → β) (k : Nat) :
    ((List.range k).map f).getLast? = if k = 0 then none else some (f (k - 1)) := by
  cases k with
  | zero => simp
  | succ n => simp [List.range_succ]

/-- C7: the value stored into the flag for a window is true exactly when the
speech-band sum of coefficient magnitudes exceeds both `0.30` times the sum
over all coefficients and `4000`, and false otherwise; the store overwrites
the flag, so after a callback the flag is the value stored for the last window
classified in it, whatever the earlier windows and the previous flag were (and
the previous flag when the callback classified no window). -/
theorem speaking_flag_rule {F C : Type} [LinearOrderedField F] [FloorSemiring F]
    (nm : Numerics F C) (st : MicState) (newSamples : List Int) (window : List F) :
    (classifyWindow nm window = true ↔
      speechBandSum nm (nm.coefficients window) > 0.30 * totalSum nm (nm.coefficients window) ∧
      speechBandSum nm (nm.coefficients window) > 4000) ∧
    (∀ p ∈ (newSample nm st newSamples).2, p.2 = classifyWindow nm p.1) ∧
    (newSample nm st newSamples).1.SpeakingFlag =
      (match (newSample nm st newSamples).2.getLast? with
       | some p => classifyWindow nm p.1
       | none => st.SpeakingFlag) ∧
    ((newSample nm st newSamples).2 = [] ↔
      (st.sampleBuffer ++ newSamples).length < FFTWindowSize) := by
  refine ⟨classifyWindow_iff nm window, ?_⟩
  obtain ⟨k, hk⟩ : ∃ k, (st.sampleBuffer ++ newSamples).length / FFTWindowSize = k := ⟨_, rfl⟩
  unfold newSample
  rw [processWindows_eq nm k _ _ _ hk]
  refine ⟨?_, ?_, ?_⟩
  · intro p hp
    simp only [List.nil_append, List.mem_map] at hp
    obtain ⟨j, -, rfl⟩ := hp
    rfl
  · simp only [List.nil_append, getLast?_map_range]
    by_cases h0 : k = 0
    · simp [h0]
    · simp [h0]
  · rw [← Nat.div_eq_zero_iff FFTWindowSize_pos, hk]
    cases k with
    | zero => simp
    | succ n => simp [List.range_succ]


theorem createHammingWindow_eq {F : Type} [LinearOrderedField F] (cos : F → F) (pi : F)
    (size : Nat) :
    createHammingWindow cos pi size
      = (List.range size).map
          fun (i : Nat) => 0.54 - 0.46 * cos (2 * pi * (i : F) / ((size - 1 : Nat) : F)) := by
  rw [createHammingWindow, fillFloat64_eq]

theorem createHammingWindow_getElem? {F : Type} [LinearOrderedField F] (cos : F → F) (pi : F)
    (size i : Nat) (hi : i < size) :
    (createHammingWindow cos pi size)[i]?
      = some (0.54 - 0.46 * cos (2 * pi * (i : F) / ((size : F) - 1))) := by
  rw [createHammingWindow_eq]
  have h1 : ((size - 1 : Nat) : F) = (size : F) - 1 := by
    rw [Nat.cast_sub (by omega)]; simp
  simp [hi, h1]

theorem createHammingWindow_bounds (N : Nat) :
    ∀ h ∈ createHammingWindow Real.cos Real.pi N, 0.08 ≤ h ∧ h ≤ 1 := by
  intro h hh
  rw [createHammingWindow_eq, List.mem_map] at hh
  obtain ⟨i, -, rfl⟩ := hh
  have h1 := Real.neg_one_le_cos (2 * Real.pi * (i : ℝ) / ((N - 1 : Nat) : ℝ))
  have h2 := Real.cos_le_one (2 * Real.pi * (i : ℝ) / ((N - 1 : Nat) : ℝ))
  constructor <;> norm_num <;> linarith

theorem getD_bounds (l : List ℝ) (hl : ∀ h ∈ l, 0.08 ≤ h ∧ h ≤ 1) (i : Nat) :
    0 ≤ l.getD i 0 ∧ l.getD i 0 ≤ 1 := by
  rw [List.getD_eq_getElem?_getD]
  cases hi : l[i]? with
  | none => simp
  | some v =>
    have hv := hl v (List.getElem?_mem hi)
    simp only [Option.getD_some]
    constructor
    · have := hv.1
      norm_num at this
      linarith
    · exact hv.2

theorem map_getD_range {β : Type} (l : List β) (d : β) :
    (List.range l.length).map (fun i => l.getD i d) = l := by
  apply List.ext_getElem?
  intro i
  by_cases hi : i < l.length
  · simp [hi, List.getD_eq_getElem?_getD, List.getElem?_eq_getElem hi]
  · have h1 : l.length ≤ i := by omega
    simp [List.getElem?_eq_none, h1]

theorem abs_list_sum_le (l : List ℂ) :
    Complex.abs l.sum ≤ (l.map fun z => Complex.abs z).sum := by
  induction l with
  | nil => simp
  | cons z rest ih =>
    simp only [List.sum_cons, List.map_cons]
    exact le_trans (Complex.abs.add_le _ _) (add_le_add_left ih _)

theorem dftCoefficients_abs_le (seq : List ℝ) :
    ∀ c ∈ dftCoefficients (fun x : ℝ => (x : ℂ)) (fun θ : ℝ => Complex.exp (θ * Complex.I))
        Real.pi seq,
      Complex.abs c ≤ (seq.map fun v => |v|).sum := by
  intro c hc
  rw [dftCoefficients, List.mem_map] at hc
  obtain ⟨k, -, rfl⟩ := hc
  refine le_trans (abs_list_sum_le _) (le_of_eq ?_)
  rw [List.map_map]
  conv_rhs => rw [← map_getD_range seq 0, List.map_map]
  apply congrArg
  apply List.map_congr_left
  intro j _
  simp only [Function.comp_apply, map_mul, Complex.abs_ofReal]
  rw [Complex.abs_exp_ofReal_mul_I, mul_one]


theorem abs_extractWindow (hamming : List ℝ) (hh : ∀ h ∈ hamming, 0.08 ≤ h ∧ h ≤ 1)
    (x : List Int) :
    (extractWindow hamming x).map (fun v => |v|)
      = (List.range FFTWindowSize).map
          fun i => |((x.getD i 0 : Int) : ℝ)| * hamming.getD i 0 := by
  rw [extractWindow_eq, List.map_map]
  apply List.map_congr_left
  intro i _
  simp only [Function.comp_apply, abs_mul, abs_of_nonneg (getD_bounds hamming hh i).1]

theorem weighted_sum_le (hamming : List ℝ) (hh : ∀ h ∈ hamming, 0.08 ≤ h ∧ h ≤ 1)
    (x : List Int) (hlen : x.length = FFTWindowSize) :
    ((List.range FFTWindowSize).map
        fun i => |((x.getD i 0 : Int) : ℝ)| * hamming.getD i 0).sum
      ≤ (x.map fun (v : Int) => |(v : ℝ)|).sum := by
  have hx : x.map (fun (v : Int) => |(v : ℝ)|)
      = (List.range FFTWindowSize).map fun i => |((x.getD i 0 : Int) : ℝ)| := by
    conv_lhs => rw [← map_getD_range x 0, List.map_map, hlen]
    rfl
  rw [hx]
  apply List.sum_le_sum
  intro i _
  exact mul_le_of_le_one_right (abs_nonneg _) (getD_bounds hamming hh i).2

theorem sum_abs_cast (x : List Int) :
    (x.map fun (v : Int) => |(v : ℝ)|).sum = (((x.map Int.natAbs).sum : Nat) : ℝ) := by
  induction x with
  | nil => simp
  | cons v rest ih =>
    simp only [List.map_cons, List.sum_cons, ih, Nat.cast_add, Nat.cast_natAbs, Int.cast_abs]

theorem speechEnergy_le_of_bound {F C : Type} [LinearOrderedField F] [FloorSemiring F]
    (nm : Numerics F C) (fftCoefs : List C) (B : F) (hB : 0 ≤ B)
    (hc : ∀ c ∈ fftCoefs, nm.cabs c ≤ B) :
    speechEnergy nm fftCoefs ≤ 176 * B := by
  rw [speechEnergy_eq]
  have hterm : ∀ v ∈ (speechBandIndices F fftCoefs.length).map
      (fun i => ((fftCoefs.get? i).map nm.cabs).getD 0), v ≤ B := by
    intro v hv
    rw [List.mem_map] at hv
    obtain ⟨i, -, rfl⟩ := hv
    cases hi : fftCoefs.get? i with
    | none => simpa using hB
    | some c => simpa using hc c (List.get?_mem hi)
  have h1 := List.sum_le_card_nsmul _ B hterm
  have hlen : (speechBandIndices F fftCoefs.length).length ≤ 176 := by
    rw [speechBandIndices_eq, List.length_range']
    omega
  rw [List.length_map, nsmul_eq_mul] at h1
  refine le_trans h1 (mul_le_mul_of_nonneg_right ?_ hB)
  exact_mod_cast hlen

theorem range'_map_getD {β : Type} (v : List β) (d : β) (a m : Nat) (h : a + m ≤ v.length) :
    (List.range' a m).map (fun i => v.getD i d) = (v.drop a).take m := by
  apply List.ext_getElem?
  intro j
  by_cases hj : j < m
  · have h2 : a + j < v.length := by omega
    simp [hj, List.getElem?_take, List.getD_eq_getElem?_getD, List.getElem?_eq_getElem h2]
  · have h1 : m ≤ j := by omega
    simp [hj, List.getElem?_take, List.getElem?_eq_none, h1]

theorem speechEnergy_le_totalEnergy {F C : Type} [LinearOrderedField F] [FloorSemiring F]
    (nm : Numerics F C) (fftCoefs : List C) (hnn : ∀ c, 0 ≤ nm.cabs c) :
    speechEnergy nm fftCoefs ≤ totalEnergy nm fftCoefs := by
  rw [speechEnergy_eq, totalEnergy_eq, speechBandIndices_eq]
  have hnonneg : ∀ a ∈ fftCoefs.map nm.cabs, 0 ≤ a := by
    intro a ha
    rw [List.mem_map] at ha
    obtain ⟨c, -, rfl⟩ := ha
    exact hnn c
  have hg : (fun i => ((fftCoefs.get? i).map nm.cabs).getD 0)
      = fun i => (fftCoefs.map nm.cabs).getD i 0 := by
    funext i
    simp [List.getD_eq_getElem?_getD]
  rw [hg]
  by_cases hlen : 11 ≤ fftCoefs.length
  · rw [range'_map_getD _ _ _ _ (by rw [List.length_map]; omega)]
    exact List.Sublist.sum_le_sum
      ((List.take_sublist _ _).trans (List.drop_sublist _ _)) hnonneg
  · have hm : min 187 fftCoefs.length - 11 = 0 := by omega
    rw [hm]
    simpa using List.sum_nonneg hnonneg


theorem classifyWindow_false_of_le {F C : Type} [LinearOrderedField F] [FloorSemiring F]
    (nm : Numerics F C) (window : List F)
    (h : speechEnergy nm (nm.coefficients window) ≤ 4000) :
    classifyWindow nm window = false := by
  unfold classifyWindow
  simp only []
  rw [if_neg]
  intro hc
  exact absurd hc.2 (not_lt.mpr h)

theorem newSample_single_window {F C : Type} [LinearOrderedField F] [FloorSemiring F]
    (nm : Numerics F C) (x : List Int) (hlen : x.length = FFTWindowSize) (flag0 : Bool) :
    newSample nm ⟨[], flag0⟩ x
      = (⟨[], classifyWindow nm (extractWindow (hammingWindow nm) x)⟩,
         [(extractWindow (hammingWindow nm) x,
           classifyWindow nm (extractWindow (hammingWindow nm) x))]) := by
  have hk : (([] : List Int) ++ x).length / FFTWindowSize = 1 := by
    rw [List.nil_append, hlen]
    exact Nat.div_self FFTWindowSize_pos
  unfold newSample
  rw [processWindows_eq nm 1 _ _ _ hk]
  have hdrop : x.drop FFTWindowSize = [] := List.drop_eq_nil_of_le (le_of_eq hlen)
  rw [show List.range 1 = [0] from rfl]
  simp [hdrop]

/-- C10: in exact real arithmetic, for every window of 2048 samples whose
absolute values sum to at most 22, every Hamming coefficient lies in
`[0.08, 1]`, every transform coefficient is bounded in modulus by
`Σ |x[i]| * w[i] ≤ Σ |x[i]| ≤ 22`, hence the speech-band energy is at most
`176 * 22 < 4000` and the callback stores false for that window; moreover the
speech-band energy of any window never exceeds its total energy. -/
theorem near_silence_not_speech (nm : Numerics ℝ ℂ) (hnm : ExactReal nm) (x : List Int)
    (hlen : x.length = 2048) (hsum : (x.map Int.natAbs).sum ≤ 22) (flag0 : Bool)
    (anyWindow : List ℝ) :
    (∀ h ∈ hammingWindow nm, 0.08 ≤ h ∧ h ≤ 1) ∧
    (∀ c ∈ nm.coefficients (extractWindow (hammingWindow nm) x),
      nm.cabs c ≤ ((List.range 2048).map
        fun i => |((x.getD i 0 : Int) : ℝ)| * (hammingWindow nm).getD i 0).sum) ∧
    ((List.range 2048).map
        fun i => |((x.getD i 0 : Int) : ℝ)| * (hammingWindow nm).getD i 0).sum
      ≤ (x.map fun (v : Int) => |(v : ℝ)|).sum ∧
    (x.map fun (v : Int) => |(v : ℝ)|).sum ≤ 22 ∧
    speechEnergy nm (nm.coefficients (extractWindow (hammingWindow nm) x)) ≤ 176 * 22 ∧
    classifyWindow nm (extractWindow (hammingWindow nm) x) = false ∧
    newSample nm ⟨[], flag0⟩ x
      = (⟨[], false⟩, [(extractWindow (hammingWindow nm) x, false)]) ∧
    speechEnergy nm (nm.coefficients anyWindow) ≤ totalEnergy nm (nm.coefficients anyWindow) := by
  obtain ⟨hcos, hpi, hfft, habs⟩ := hnm
  have hN : FFTWindowSize = 2048 := rfl
  have hlen1 : x.length = FFTWindowSize := hlen
  have hh : ∀ h ∈ hammingWindow nm, 0.08 ≤ h ∧ h ≤ 1 := by
    rw [hammingWindow, hcos, hpi]
    exact createHammingWindow_bounds _
  have hw := weighted_sum_le (hammingWindow nm) hh x hlen1
  have h22 : (x.map fun (v : Int) => |(v : ℝ)|).sum ≤ 22 := by
    rw [sum_abs_cast]
    exact_mod_cast hsum
  have hcoef : ∀ c ∈ nm.coefficients (extractWindow (hammingWindow nm) x),
      nm.cabs c ≤ ((List.range FFTWindowSize).map
        fun i => |((x.getD i 0 : Int) : ℝ)| * (hammingWindow nm).getD i 0).sum := by
    intro c hc
    rw [hfft] at hc
    have := dftCoefficients_abs_le _ c hc
    rw [abs_extractWindow _ hh] at this
    rw [habs]
    exact this
  have hspeech : speechEnergy nm (nm.coefficients (extractWindow (hammingWindow nm) x))
      ≤ 176 * 22 :=
    speechEnergy_le_of_bound nm _ 22 (by norm_num)
      (fun c hc => le_trans (hcoef c hc) (le_trans hw h22))
  have hfalse : classifyWindow nm (extractWindow (hammingWindow nm) x) = false :=
    classifyWindow_false_of_le nm _ (le_trans hspeech (by norm_num))
  refine ⟨hh, hcoef, hw, h22, hspeech, hfalse, ?_, ?_⟩
  · rw [newSample_single_window nm x hlen1 flag0, hfalse]
  · apply speechEnergy_le_totalEnergy
    intro c
    rw [habs]
    exact Complex.abs.nonneg c

theorem spike_window_length (n : Nat) : ((22 : Int) :: List.replicate n 0).length = n + 1 := by
  rw [List.length_cons, List.length_replicate]

theorem spike_window_sum (n : Nat) :
    (((22 : Int) :: List.replicate n 0).map Int.natAbs).sum ≤ 22 := by
  rw [List.map_cons, List.sum_cons, List.map_replicate, List.sum_replicate, Int.natAbs_zero,
    smul_zero]
  decide

/-- C10 at the window with one sample of value 22 followed by 2047 zero samples. -/
theorem near_silence_not_speech_witness :
    ExactReal ⟨Real.cos, Real.pi,
      dftCoefficients (fun x : ℝ => (x : ℂ)) (fun θ : ℝ => Complex.exp (θ * Complex.I)) Real.pi,
      fun z => Complex.abs z⟩ ∧
    ((22 : Int) :: List.replicate 2047 0).length = 2048 ∧
    (((22 : Int) :: List.replicate 2047 0).map Int.natAbs).sum ≤ 22 ∧
    classifyWindow (⟨Real.cos, Real.pi,
      dftCoefficients (fun x : ℝ => (x : ℂ)) (fun θ : ℝ => Complex.exp (θ * Complex.I)) Real.pi,
      fun z => Complex.abs z⟩ : Numerics ℝ ℂ)
      (extractWindow (hammingWindow (⟨Real.cos, Real.pi,
        dftCoefficients (fun x : ℝ => (x : ℂ)) (fun θ : ℝ => Complex.exp (θ * Complex.I))
          Real.pi,
        fun z => Complex.abs z⟩ : Numerics ℝ ℂ)) ((22 : Int) :: List.replicate 2047 0)) = false :=
  ⟨⟨rfl, rfl, rfl, rfl⟩, spike_window_length 2047, spike_window_sum 2047,
    (near_silence_not_speech _ ⟨rfl, rfl, rfl, rfl⟩ ((22 : Int) :: List.replicate 2047 0)
      (spike_window_length 2047) (spike_window_sum 2047) false []).2.2.2.2.2.1⟩

end processinput

namespace processoutput

open objects

/-! ## Facts about the serializer -/

theorem toUint16_lt (v : Int) : toUint16 v < 65536 := by
  unfold toUint16
  have h1 : v % 65536 < 65536 := Int.emod_lt_of_pos v (by norm_num)
  have h0 : 0 ≤ v % 65536 := Int.emod_nonneg v (by norm_num)
  omega

theorem int16ToBytesLoop_eq (s : List Int) (buf : List Nat) :
    int16ToBytesLoop buf s = buf ++ serializeLE s := by
  induction s generalizing buf with
  | nil => simp [int16ToBytesLoop, serializeLE]
  | cons v rest ih =>
    have hv := toUint16_lt v
    have hdiv : toUint16 v / 256 % 256 = toUint16 v / 256 := by omega
    simp [int16ToBytesLoop, binaryWrite, ih, serializeLE, putUint16, hdiv]

theorem int16ToBytes_eq (s : List Int) : int16ToBytes s = serializeLE s := by
  simp [int16ToBytes, int16ToBytesLoop_eq]

theorem writeData_fresh (d : List Nat) :
    writeData (newBufferWithSize d.length) d = d := by
  simp [writeData, newBufferWithSize]

theorem toUint16_eq_twosComplement16 (v : Int) (hv : IsInt16 v) :
    toUint16 v = twosComplement16 v := by
  unfold toUint16 twosComplement16
  obtain ⟨h1, h2⟩ := hv
  split_ifs with h
  · have : v % 65536 = v + 65536 := by omega
    rw [this]
  · have : v % 65536 = v := by omega
    rw [this]

theorem serializeLE_length (s : List Int) : (serializeLE s).length = 2 * s.length := by
  induction s with
  | nil => simp [serializeLE]
  | cons v rest ih =>
    simp only [serializeLE, List.flatMap_cons, List.length_append, List.length_cons,
      List.length_nil] at ih ⊢
    omega

theorem serializeLE_cons (v : Int) (rest : List Int) :
    serializeLE (v :: rest) = toUint16 v % 256 :: toUint16 v / 256 :: serializeLE rest := by
  simp [serializeLE]

theorem serializeLE_append (a b : List Int) :
    serializeLE (a ++ b) = serializeLE a ++ serializeLE b := by
  simp [serializeLE]

theorem serializeLE_get (s : List Int) (i : Nat) (hi : i < s.length) :
    (serializeLE s)[2 * i]? = some (toUint16 (s.get ⟨i, hi⟩) % 256) ∧
    (serializeLE s)[2 * i + 1]? = some (toUint16 (s.get ⟨i, hi⟩) / 256) := by
  induction s generalizing i with
  | nil => simp at hi
  | cons v rest ih =>
    rw [serializeLE_cons]
    cases i with
    | zero => simp
    | succ j =>
      have hj : j < rest.length := by simpa using hi
      have e1 : 2 * (j + 1) = (2 * j) + 1 + 1 := by ring
      have e2 : 2 * (j + 1) + 1 = (2 * j + 1) + 1 + 1 := by ring
      rw [e2, e1]
      simpa using ih j hj

theorem bytesToInt16_serializeLE (s : List Int) (hs : ∀ v ∈ s, IsInt16 v) :
    bytesToInt16 (serializeLE s) = s := by
  induction s with
  | nil => simp [serializeLE, bytesToInt16]
  | cons v rest ih =>
    rw [serializeLE_cons]
    have hv : IsInt16 v := hs v (List.mem_cons_self _ _)
    have hrest : ∀ w ∈ rest, IsInt16 w := fun w hw => hs w (List.mem_cons_of_mem _ hw)
    simp only [bytesToInt16, ih hrest]
    have hu : toUint16 v % 256 + 256 * (toUint16 v / 256) = toUint16 v := Nat.mod_add_div _ _
    rw [hu, toUint16_eq_twosComplement16 v hv]
    obtain ⟨h1, h2⟩ := hv
    unfold twosComplement16
    congr 1
    split_ifs <;> omega

/-! ## The pull handler -/

theorem toneStage_eq (s : RouterState) :
    toneStage s =
      match s.ToneChannel with
      | t :: rest =>
        if s.SpeakingFlag then (({ s with ToneChannel := rest } : RouterState),
            [List.replicate 64 0])
        else (({ s with ToneChannel := rest } : RouterState), [serializeLE t])
      | [] => (s, [List.replicate 64 0]) := by
  unfold toneStage
  cases h : s.ToneChannel with
  | nil => simp [pushDummy, newBufferWithSize]
  | cons t rest =>
    cases hf : s.SpeakingFlag
    · simp [hf, writeData_fresh, int16ToBytes_eq]
    · simp [hf, pushDummy, newBufferWithSize]

theorem needData_eq (s : RouterState) :
    needData s =
      match s.MicroPhoneChannel with
      | m :: rest =>
        if s.SpeakingFlag then (({ s with MicroPhoneChannel := rest } : RouterState),
            [serializeLE m])
        else toneStage { s with MicroPhoneChannel := rest }
      | [] => toneStage s := by
  unfold needData
  cases h : s.MicroPhoneChannel with
  | nil => simp
  | cons m rest =>
    cases hf : s.SpeakingFlag <;> simp [hf, writeData_fresh, int16ToBytes_eq]

/-- C1: for every state, one call of the NeedData handler pushes exactly one
buffer: the little-endian serialization of the head microphone block when the
flag is set and the microphone queue is non-empty; otherwise that of the head
tone block when the flag is clear and the tone queue is non-empty; otherwise a
filler of exactly 64 bytes. -/
theorem needData_emits_exactly_one (flag : Bool) (mic tone : List SampleBlock) :
    ∃ b, (needData ⟨flag, mic, tone⟩).2 = [b] ∧
      match flag, mic, tone with
      | true, m :: _, _ => b = serializeLE m
      | false, _, t :: _ => b = serializeLE t
      | _, _, _ => b.length = 64 := by
  rw [needData_eq]
  cases flag <;> cases mic <;> cases tone <;> simp [toneStage_eq]

/-- C2: with the flag set and both queues non-empty, the handler pushes the
byte-exact little-endian serialization of the head microphone block and nothing
else, removes exactly that block from the microphone queue, and leaves the
tone queue as it was. -/
theorem needData_speaking_emits_mic (m : SampleBlock) (micRest : List SampleBlock)
    (t : SampleBlock) (toneRest : List SampleBlock) :
    needData ⟨true, m :: micRest, t :: toneRest⟩ =
      (⟨true, micRest, t :: toneRest⟩, [serializeLE m]) := by
  rw [needData_eq]
  simp

/-- C3 (as stated) fails: with the flag clear and one block in each queue the
pull removes both blocks, the microphone block without emitting it; with the
flag set and only a tone block queued, the pull removes the tone block and
emits the filler. -/
theorem needData_dequeues_unselected :
    needData ⟨false, [[1]], [[2]]⟩ = (⟨false, [], []⟩, [[2, 0]]) ∧
    ¬ DequeuesSelectedOnly ⟨false, [[1]], [[2]]⟩ ∧
    needData ⟨true, [], [[2]]⟩ = (⟨true, [], []⟩, [newBufferWithSize 64]) ∧
    ¬ DequeuesSelectedOnly ⟨true, [], [[2]]⟩ := by
  refine ⟨by decide, ?_, by decide, ?_⟩
  · intro h
    have h1 := h.1
    revert h1
    decide
  · intro h
    have h3 := h.2.2.1 rfl
    revert h3
    decide

/-- C3 (amended): on every pull the router receives from the queues before it
consults the flag: it removes the head block of a non-empty microphone queue
whatever the flag is and, unless that block was pushed (flag set), also the
head block of a non-empty tone queue.  Nothing else is removed, so each queue
loses at most its head block, the tone queue is unchanged when the microphone
block is pushed, a pushed data block comes from the queue the flag selects,
and when the queue the flag selects is empty the filler is pushed. -/
theorem needData_frame (flag : Bool) (mic tone : List SampleBlock) :
    (needData ⟨flag, mic, tone⟩).1 =
        ⟨flag, mic.tail, if flag = true ∧ mic ≠ [] then tone else tone.tail⟩ ∧
    ((needData ⟨flag, mic, tone⟩).2 = [newBufferWithSize 64] ∨
      (flag = true ∧ ∃ m rest, mic = m :: rest ∧
        (needData ⟨flag, mic, tone⟩).2 = [serializeLE m]) ∨
      (flag = false ∧ ∃ t rest, tone = t :: rest ∧
        (needData ⟨flag, mic, tone⟩).2 = [serializeLE t])) ∧
    ((if flag then mic else tone) = [] →
      (needData ⟨flag, mic, tone⟩).2 = [newBufferWithSize 64]) := by
  rw [needData_eq]
  cases flag <;> cases mic <;> cases tone <;> simp [toneStage_eq, newBufferWithSize]

/-- C4: with both queues empty, for either value of the flag, the handler
pushes one filler block of 64 bytes, all zero, and both queues stay empty. -/
theorem needData_both_empty (flag : Bool) :
    ∃ b, needData ⟨flag, [], []⟩ = (⟨flag, [], []⟩, [b]) ∧
      b.length = 64 ∧ ∀ x ∈ b, x = 0 := by
  refine ⟨List.replicate 64 0, ?_, by simp, ?_⟩
  · rw [needData_eq]; simp [toneStage_eq]
  · intro x hx
    exact List.eq_of_mem_replicate hx

/-- C5: for every slice of int16 samples, the serializer yields `2 * len`
bytes, byte `2i` being the low and byte `2i+1` the high eight bits of the
two's-complement value of sample `i`; reading the bytes back as little-endian
int16 pairs returns the slice, and serialization distributes over
concatenation. -/
theorem int16ToBytes_little_endian (s : List Int) (hs : ∀ v ∈ s, IsInt16 v) :
    (int16ToBytes s).length = 2 * s.length ∧
    (∀ (i : Nat) (hi : i < s.length),
      (int16ToBytes s)[2 * i]? = some (twosComplement16 (s.get ⟨i, hi⟩) % 2 ^ 8) ∧
      (int16ToBytes s)[2 * i + 1]? = some (twosComplement16 (s.get ⟨i, hi⟩) / 2 ^ 8)) ∧
    bytesToInt16 (int16ToBytes s) = s ∧
    (∀ a b : List Int, int16ToBytes (a ++ b) = int16ToBytes a ++ int16ToBytes b) := by
  refine ⟨?_, ?_, ?_, ?_⟩
  · rw [int16ToBytes_eq, serializeLE_length]
  · intro i hi
    have hv : IsInt16 (s.get ⟨i, hi⟩) := hs _ (List.get_mem s i hi)
    rw [int16ToBytes_eq, ← toUint16_eq_twosComplement16 _ hv]
    exact serializeLE_get s i hi
  · rw [int16ToBytes_eq]
    exact bytesToInt16_serializeLE s hs
  · intro a b
    simp only [int16ToBytes_eq, serializeLE_append]

/-- C5 at the block `[-2, 258, 32767, -32768]`. -/
theorem int16ToBytes_little_endian_witness :
    (∀ v ∈ [(-2 : Int), 258, 32767, -32768], IsInt16 v) ∧
    int16ToBytes [-2, 258, 32767, -32768] = [254, 255, 2, 1, 255, 127, 0, 128] ∧
    bytesToInt16 (int16ToBytes [-2, 258, 32767, -32768]) = [-2, 258, 32767, -32768] :=
  ⟨by decide, by decide,
    (int16ToBytes_little_endian [-2, 258, 32767, -32768] (by decide)).2.2.1⟩

end processoutput
